import Mathlib

/-!
Verification of the Quartz protocol engine of the Evertz router control
module (stream framer, message interpreter, router state store, command
builders, and command dispatch).  Protocol strings are modelled as
`List Char`; each definition is a direct translation of the corresponding
JavaScript function, with the source name kept (leading underscores
dropped).  All definitions are computable, so concrete protocol exchanges
can be evaluated inside proofs.
-/

namespace Quartz

/-- Result of JavaScript `parseInt(str, 10)`: `none` models `NaN`.
Skips leading whitespace, accepts an optional sign, consumes the maximal
leading run of decimal digits and ignores any trailing characters. -/
def parseIntJS (s : List Char) : Option Int :=
  let t := s.dropWhile (fun c => c == ' ' || c == '\t' || c == '\n' || c == '\r')
  match t with
  | '-' :: rest =>
    let ds := rest.takeWhile (fun c => c.isDigit)
    if ds = [] then none
    else some (-(Int.ofNat (ds.foldl (fun acc c => acc * 10 + (c.toNat - '0'.toNat)) 0)))
  | '+' :: rest =>
    let ds := rest.takeWhile (fun c => c.isDigit)
    if ds = [] then none
    else some (Int.ofNat (ds.foldl (fun acc c => acc * 10 + (c.toNat - '0'.toNat)) 0))
  | _ =>
    let ds := t.takeWhile (fun c => c.isDigit)
    if ds = [] then none
    else some (Int.ofNat (ds.foldl (fun acc c => acc * 10 + (c.toNat - '0'.toNat)) 0))

/-- Splits a string at its first comma, as the JavaScript sources do with
`payload.indexOf(',')` followed by two `slice` calls; `none` models the
`commaIndex === -1` branch. -/
def splitAtComma : List Char → Option (List Char × List Char)
  | [] => none
  | c :: rest =>
    if c = ',' then some ([], rest)
    else
      match splitAtComma rest with
      | some (a, b) => some (c :: a, b)
      | none => none

/-- The fixed level alphabet `validLevels` of quartz.js and index.js. -/
def validLevels : List Char := "VABCDEFGHIJKLMNO".toList

/-- Typed message variants produced by `QuartzParser._parseLine`.  Name
ids are `Option Int` because `_parseNameResponse` never checks `isNaN`;
an Acknowledge with empty `data` models the `undefined` data field. -/
inductive ParsedMessage where
  | destinationName (id : Option Int) (name : List Char)
  | sourceName (id : Option Int) (name : List Char)
  | crosspointUpdate (levels : List Char) (destination source : Int)
  | acknowledge (data : List Char) (raw : List Char)
  | lockStatus (destination status : Int)
  | powerUp
  | protocolError (raw : List Char)
  | unknown (raw : List Char)
deriving DecidableEq, Repr

/-- Which directory a name response belongs to. -/
inductive NameKind where
  | dest
  | src
deriving DecidableEq, Repr

/-- `QuartzParser._parseNameResponse`: strip the prefix, split at the
first comma (no comma reclassifies the record as Unknown), `parseInt`
the id and keep the remainder as the name. -/
def parseNameResponse (line pfx : List Char) (kind : NameKind) : ParsedMessage :=
  let payload := line.drop pfx.length
  match splitAtComma payload with
  | none => ParsedMessage.unknown line
  | some (idStr, name) =>
    match kind with
    | NameKind.dest => ParsedMessage.destinationName (parseIntJS idStr) name
    | NameKind.src => ParsedMessage.sourceName (parseIntJS idStr) name

/-- `QuartzParser._parseUpdateResponse`: strip `.U`, require at least
three payload characters, take the maximal leading run of level
characters, then parse `{dest},{src}`; any failure yields Unknown. -/
def parseUpdateResponse (line : List Char) : ParsedMessage :=
  let payload := line.drop 2
  if payload.length < 3 then ParsedMessage.unknown line
  else
    let levels := payload.takeWhile (fun c => validLevels.contains c)
    if levels.length = 0 then ParsedMessage.unknown line
    else
      let rest := payload.drop levels.length
      match splitAtComma rest with
      | none => ParsedMessage.unknown line
      | some (dStr, sStr) =>
        match parseIntJS dStr, parseIntJS sStr with
        | some d, some s => ParsedMessage.crosspointUpdate levels d s
        | _, _ => ParsedMessage.unknown line

/-- `QuartzParser._parseLockStatusResponse`: strip `.BA` and parse
`{dest},{status}` with `isNaN` checks. -/
def parseLockStatusResponse (line : List Char) : ParsedMessage :=
  let payload := line.drop 3
  match splitAtComma payload with
  | none => ParsedMessage.unknown line
  | some (dStr, sStr) =>
    match parseIntJS dStr, parseIntJS sStr with
    | some d, some s => ParsedMessage.lockStatus d s
    | _, _ => ParsedMessage.unknown line

/-- `QuartzParser._parseAcknowledgeResponse`: everything after `.A` is
the data (empty models the `undefined` data of a bare `.A`). -/
def parseAcknowledgeResponse (line : List Char) : ParsedMessage :=
  ParsedMessage.acknowledge (line.drop 2) line

/-- `QuartzParser._parseLine`: classify one framed record by the same
prefix checks, in the same order, as the source.  The source function
never returns `null` (every branch returns an object), so this is total. -/
def parseLine (line : List Char) : ParsedMessage :=
  if (".RAD".toList).isPrefixOf line then
    parseNameResponse line (".RAD".toList) NameKind.dest
  else if (".RAS".toList).isPrefixOf line then
    parseNameResponse line (".RAS".toList) NameKind.src
  else if (".U".toList).isPrefixOf line then
    parseUpdateResponse line
  else if (".BA".toList).isPrefixOf line then
    parseLockStatusResponse line
  else if (".A".toList).isPrefixOf line then
    parseAcknowledgeResponse line
  else if (".E".toList).isPrefixOf line then
    ParsedMessage.protocolError line
  else if (".P".toList).isPrefixOf line then
    ParsedMessage.powerUp
  else
    ParsedMessage.unknown line

/-- The suffix of a record starting at the last occurrence of `.`, or
`none` when the record contains no `.` — this is
`message.lastIndexOf('.')` followed by `message.slice(dotIndex)`. -/
def lastDotSuffix : List Char → Option (List Char)
  | [] => none
  | c :: rest =>
    match lastDotSuffix rest with
    | some s => some s
    | none => if c = '.' then some (c :: rest) else none

/-- The body of the `_processBuffer` loop for one candidate record:
an empty record emits nothing, a record with no `.` emits nothing, and
otherwise the suffix from the last `.` is parsed and emitted. -/
def emitRecord (message : List Char) : List ParsedMessage :=
  if message = [] then []
  else
    match lastDotSuffix message with
    | some clean => [parseLine clean]
    | none => []

/-- The `while ((crIndex = this._buffer.indexOf('\r')) !== -1)` loop of
`_processBuffer`.  `acc` is the prefix of the buffer already scanned and
known to contain no terminator; the function returns the emitted parsed
messages in order together with the left-over (unterminated) buffer. -/
def processGo (acc : List Char) : List Char → List ParsedMessage × List Char
  | [] => ([], acc)
  | c :: rest =>
    if c = '\r' then
      let r := processGo [] rest
      (emitRecord acc ++ r.1, r.2)
    else
      processGo (acc ++ [c]) rest

/-- `QuartzParser._processBuffer`, started from the beginning of the
buffer as the source does on every call. -/
def processBuffer (buf : List Char) : List ParsedMessage × List Char :=
  processGo [] buf

/-- `QuartzParser.feed`: append the chunk to the internal buffer, then
process every complete (terminator-ended) message.  Returns the emitted
messages and the new buffer. -/
def feed (buf chunk : List Char) : List ParsedMessage × List Char :=
  processBuffer (buf ++ chunk)

/-- Feeding a sequence of chunks one `feed` call at a time, starting
from buffer `buf`; collects all emitted messages in order. -/
def feedMany (buf : List Char) : List (List Char) → List ParsedMessage × List Char
  | [] => ([], buf)
  | chunk :: rest =>
    let r1 := feed buf chunk
    let r2 := feedMany r1.2 rest
    (r1.1 ++ r2.1, r2.2)

/-- The U+FFFD replacement character produced for invalid UTF-8. -/
def replChar : Char := Char.ofNat 0xFFFD

/-- One step of the per-chunk `Buffer.isBuffer(data) ?
data.toString('utf-8') : data` decode at the top of `QuartzParser.feed`
(quartz.js:203), for Buffer input: WHATWG UTF-8 decoding with U+FFFD
replacement for invalid or truncated sequences (maximal-subpart rule:
an unexpected byte is reprocessed as a new sequence start, and input
ending inside a sequence yields one replacement).  Bytes are naturals
0-255.  Decodes one scalar (or one replacement) and returns the
unconsumed remainder; `none` on empty input.  (An astral code point is
modelled as one scalar `Char` rather than a JS surrogate pair; no
record in the claims leaves the single-byte range.) -/
def utf8Step : List Nat → Option (Char × List Nat)
  | [] => none
  | b :: rest =>
    if b ≤ 0x7F then some (Char.ofNat b, rest)
    else if 0xC2 ≤ b ∧ b ≤ 0xDF then
      match rest with
      | [] => some (replChar, [])
      | c1 :: rest1 =>
        if 0x80 ≤ c1 ∧ c1 ≤ 0xBF then
          some (Char.ofNat ((b - 0xC0) * 0x40 + (c1 - 0x80)), rest1)
        else some (replChar, c1 :: rest1)
    else if 0xE0 ≤ b ∧ b ≤ 0xEF then
      match rest with
      | [] => some (replChar, [])
      | c1 :: rest1 =>
        if (b = 0xE0 ∧ 0xA0 ≤ c1 ∧ c1 ≤ 0xBF) ∨
            (b = 0xED ∧ 0x80 ≤ c1 ∧ c1 ≤ 0x9F) ∨
            (b ≠ 0xE0 ∧ b ≠ 0xED ∧ 0x80 ≤ c1 ∧ c1 ≤ 0xBF) then
          match rest1 with
          | [] => some (replChar, [])
          | c2 :: rest2 =>
            if 0x80 ≤ c2 ∧ c2 ≤ 0xBF then
              some (Char.ofNat ((b - 0xE0) * 0x1000 + (c1 - 0x80) * 0x40 + (c2 - 0x80)),
                rest2)
            else some (replChar, c2 :: rest2)
        else some (replChar, c1 :: rest1)
    else if 0xF0 ≤ b ∧ b ≤ 0xF4 then
      match rest with
      | [] => some (replChar, [])
      | c1 :: rest1 =>
        if (b = 0xF0 ∧ 0x90 ≤ c1 ∧ c1 ≤ 0xBF) ∨
            (b = 0xF4 ∧ 0x80 ≤ c1 ∧ c1 ≤ 0x8F) ∨
            (b ≠ 0xF0 ∧ b ≠ 0xF4 ∧ 0x80 ≤ c1 ∧ c1 ≤ 0xBF) then
          match rest1 with
          | [] => some (replChar, [])
          | c2 :: rest2 =>
            if 0x80 ≤ c2 ∧ c2 ≤ 0xBF then
              match rest2 with
              | [] => some (replChar, [])
              | c3 :: rest3 =>
                if 0x80 ≤ c3 ∧ c3 ≤ 0xBF then
                  some (Char.ofNat ((b - 0xF0) * 0x40000 + (c1 - 0x80) * 0x1000 +
                    (c2 - 0x80) * 0x40 + (c3 - 0x80)), rest3)
                else some (replChar, c3 :: rest3)
            else some (replChar, c2 :: rest2)
        else some (replChar, c1 :: rest1)
    else some (replChar, rest)

/-- The decode loop, made structural with an iteration bound: each step
consumes at least the lead byte (theorem `utf8Step_length_lt`), so any
fuel above the input length lets the loop run to its real exit (theorem
`utf8DecodeFuel_congr` shows the bound is irrelevant). -/
def utf8DecodeFuel : Nat → List Nat → List Char
  | 0, _ => []
  | n + 1, bytes =>
    match utf8Step bytes with
    | none => []
    | some p => p.1 :: utf8DecodeFuel n p.2

/-- Full per-chunk UTF-8 decode of a Buffer, as `data.toString('utf-8')`
performs it: the decoder keeps no state across chunks, so a chunk
boundary inside a multi-byte sequence corrupts it. -/
def utf8Decode (bytes : List Nat) : List Char :=
  utf8DecodeFuel (bytes.length + 1) bytes

/-- `QuartzParser.feed` at byte level, as called from the socket data
handler with a Buffer: decode the chunk, append it to the buffer and
process. -/
def feedBytes (buf : List Char) (data : List Nat) : List ParsedMessage × List Char :=
  feed buf (utf8Decode data)

/-- Feeding a sequence of byte chunks one `feed` call at a time, each
chunk decoded on arrival as in the source. -/
def feedBytesMany (buf : List Char) : List (List Nat) → List ParsedMessage × List Char
  | [] => ([], buf)
  | chunk :: rest =>
    let r1 := feedBytes buf chunk
    let r2 := feedBytesMany r1.2 rest
    (r1.1 ++ r2.1, r2.2)

/-- `buildReadDestinationsCommand`: concatenates `.RD{i}\r` for
`i = 1 .. maxDestinations`. -/
def buildReadDestinationsCommand (maxDestinations : Nat) : List Char :=
  (List.range' 1 maxDestinations).foldl
    (fun cmd i => cmd ++ ".RD".toList ++ Nat.toDigits 10 i ++ ['\r']) []

/-- `buildReadSourcesCommand`: concatenates `.RS{i}\r` for
`i = 1 .. maxSources`. -/
def buildReadSourcesCommand (maxSources : Nat) : List Char :=
  (List.range' 1 maxSources).foldl
    (fun cmd i => cmd ++ ".RS".toList ++ Nat.toDigits 10 i ++ ['\r']) []

/-- `buildReadNamesCommand`: destination reads followed by source reads. -/
def buildReadNamesCommand (maxDestinations maxSources : Nat) : List Char :=
  buildReadDestinationsCommand maxDestinations ++ buildReadSourcesCommand maxSources

/-- An entry of `CHOICES_DESTINATIONS` / `CHOICES_SOURCES`. -/
structure ChoiceEntry where
  id : List Char
  label : List Char
deriving DecidableEq, Repr

/-- Observable notifications of the state store: `directoryChanged`
stands for `_scheduleActionsRefresh`, `crosspointChanged` for
`checkFeedbacks`, `diagnostic` for the error log of
`_handleProtocolError`. -/
inductive Signal where
  | directoryChanged
  | crosspointChanged
  | diagnostic
deriving DecidableEq, Repr

/-- The store state of `QuartzInstance`: the two choice lists and the
crosspoint table `{ [level]: { [destination]: source } }`, modelled as a
lookup function (`none` means the pair has never been observed). -/
structure InstanceState where
  choicesDestinations : List ChoiceEntry
  choicesSources : List ChoiceEntry
  crosspoints : Char → Int → Option Int

/-- The constructor state of `QuartzInstance`: sentinel placeholder
entries and an empty crosspoint table. -/
def initInstance : InstanceState where
  choicesDestinations := [⟨['0'], "No Destinations Loaded".toList⟩]
  choicesSources := [⟨['0'], "No Sources Loaded".toList⟩]
  crosspoints := fun _ _ => none

/-- JavaScript `String(n)` for the integer ids this module produces. -/
def intToStr (n : Int) : List Char :=
  if n < 0 then '-' :: Nat.toDigits 10 n.natAbs else Nat.toDigits 10 n.toNat

/-- JavaScript string interpolation of a name-message id (a `NaN` id
prints as the text `NaN`). -/
def idToStr : Option Int → List Char
  | some n => intToStr n
  | none => "NaN".toList

/-- The entry `{ id: String(message.id), label: `[id] name` }` built by
`_handleDestinationName` / `_handleSourceName`. -/
def nameEntry (id : Option Int) (name : List Char) : ChoiceEntry :=
  ⟨idToStr id, ['['] ++ idToStr id ++ [']', ' '] ++ name⟩

/-- `QuartzInstance._updateChoiceList`: drop the `id: '0'` placeholder
when it is the sole entry, then update the entry with a matching id only
if its label changed, or append a new entry; the boolean records whether
`_scheduleActionsRefresh` was called. -/
def updateChoiceList (list : List ChoiceEntry) (entry : ChoiceEntry) :
    List ChoiceEntry × Bool :=
  let l1 := match list with
    | [e] => if e.id = ['0'] then [] else [e]
    | _ => list
  match l1.findIdx? (fun e => e.id == entry.id) with
  | some i =>
    match l1[i]? with
    | some e =>
      if e.label = entry.label then (l1, false) else (l1.set i entry, true)
    | none => (l1, false)
  | none => (l1 ++ [entry], true)

/-- `QuartzInstance._handleDestinationName`. -/
def handleDestinationName (st : InstanceState) (id : Option Int) (name : List Char) :
    InstanceState × List Signal :=
  let r := updateChoiceList st.choicesDestinations (nameEntry id name)
  ({ st with choicesDestinations := r.1 },
    if r.2 then [Signal.directoryChanged] else [])

/-- `QuartzInstance._handleSourceName`. -/
def handleSourceName (st : InstanceState) (id : Option Int) (name : List Char) :
    InstanceState × List Signal :=
  let r := updateChoiceList st.choicesSources (nameEntry id name)
  ({ st with choicesSources := r.1 },
    if r.2 then [Signal.directoryChanged] else [])

/-- Point update of the crosspoint table:
`this.crosspoints[level][destination] = source`. -/
def setXpt (xpt : Char → Int → Option Int) (level : Char) (destination source : Int) :
    Char → Int → Option Int :=
  fun l d => if l = level ∧ d = destination then some source else xpt l d

/-- `QuartzInstance._handleCrosspointUpdate`: set the table entry for
every level of the message, then always call `checkFeedbacks`. -/
def handleCrosspointUpdate (st : InstanceState) (levels : List Char)
    (destination source : Int) : InstanceState × List Signal :=
  ({ st with crosspoints :=
      levels.foldl (fun x lv => setXpt x lv destination source) st.crosspoints },
    [Signal.crosspointChanged])

/-- One scanned `{level}{dest},{src}` group of an Acknowledge payload,
with its numeric fields still unparsed. -/
structure RawGroup where
  level : Char
  destStr : List Char
  srcStr : List Char
deriving DecidableEq, Repr

/-- One iteration of the `_parseInterrogateData` while-loop: stop when
the first character is not a level character, drop it, split at the next
comma into the destination digits (stop when no comma remains), and take
the source characters up to the next level character; returns the
scanned group and the unconsumed remainder. -/
def scanStep (remaining : List Char) : Option (RawGroup × List Char) :=
  match remaining with
  | [] => none
  | level :: rest =>
    if validLevels.contains level then
      match splitAtComma rest with
      | none => none
      | some (dStr, afterComma) =>
        let srcStr := afterComma.takeWhile (fun c => !(validLevels.contains c))
        some (⟨level, dStr, srcStr⟩, afterComma.drop srcStr.length)
    else none

/-- Numeric parse and store of one scanned group, as done inside the
`_parseInterrogateData` loop body: on success the table entry is set and
`updated` becomes true; a `NaN` destination or source applies nothing. -/
def groupApply (st : InstanceState) (g : RawGroup) : InstanceState × Bool :=
  match parseIntJS g.destStr, parseIntJS g.srcStr with
  | some d, some s =>
    ({ st with crosspoints := setXpt st.crosspoints g.level d s }, true)
  | _, _ => (st, false)

/-- Whether both numeric fields of a scanned group parse, i.e. whether
the loop body applies the group. -/
def groupOk (g : RawGroup) : Bool :=
  (parseIntJS g.destStr).isSome && (parseIntJS g.srcStr).isSome

/-- The `_parseInterrogateData` while-loop, made structural with an
iteration bound: each iteration consumes at least one character of
`remaining` (theorem `scanStep_length_lt`), so any fuel above the length
of `remaining` lets the loop run to its real exit (theorem
`pidFuel_congr` shows the bound is irrelevant). -/
def pidFuel : Nat → InstanceState → List Char → InstanceState × Bool
  | 0, st, _ => (st, false)
  | n + 1, st, remaining =>
    match scanStep remaining with
    | none => (st, false)
    | some gr =>
      let r1 := groupApply st gr.1
      let r2 := pidFuel n r1.1 gr.2
      (r2.1, r1.2 || r2.2)

/-- `QuartzInstance._parseInterrogateData`: the while-loop over the
Acknowledge payload; returns the updated store and the `updated` flag
deciding the `checkFeedbacks` call. -/
def parseInterrogateData (st : InstanceState) (remaining : List Char) :
    InstanceState × Bool :=
  pidFuel (remaining.length + 1) st remaining

/-- Fuel-bounded scan of the raw groups the `_parseInterrogateData`
loop visits, in order, including groups whose numeric fields fail to
parse. -/
def scanGroupsFuel : Nat → List Char → List RawGroup
  | 0, _ => []
  | n + 1, remaining =>
    match scanStep remaining with
    | none => []
    | some gr => gr.1 :: scanGroupsFuel n gr.2

/-- The sequence of raw groups the `_parseInterrogateData` loop scans. -/
def scanGroups (remaining : List Char) : List RawGroup :=
  scanGroupsFuel (remaining.length + 1) remaining

/-- `QuartzInstance._handleAcknowledge`: a bare acknowledge is ignored;
otherwise the data is parsed as interrogate groups and `checkFeedbacks`
runs exactly when at least one group was applied. -/
def handleAcknowledge (st : InstanceState) (data : List Char) :
    InstanceState × List Signal :=
  if data = [] then (st, [])
  else
    let r := parseInterrogateData st data
    (r.1, if r.2 then [Signal.crosspointChanged] else [])

/-- `QuartzInstance._handleParsedMessage`: the dispatch switch.  The
switch has no `LOCK_STATUS` case, so lock-status messages fall through
unchanged; `POWER_UP` only logs and re-issues wire commands (no store
mutation); `ERROR` reaches `_handleProtocolError`, which only logs a
diagnostic; `UNKNOWN` at most logs. -/
def handleParsedMessage (st : InstanceState) : ParsedMessage → InstanceState × List Signal
  | ParsedMessage.destinationName id name => handleDestinationName st id name
  | ParsedMessage.sourceName id name => handleSourceName st id name
  | ParsedMessage.crosspointUpdate levels d s => handleCrosspointUpdate st levels d s
  | ParsedMessage.acknowledge data _ => handleAcknowledge st data
  | ParsedMessage.lockStatus _ _ => (st, [])
  | ParsedMessage.powerUp => (st, [])
  | ParsedMessage.protocolError _ => (st, [Signal.diagnostic])
  | ParsedMessage.unknown _ => (st, [])

/-- Applies a list of parsed messages to the store in arrival order,
collecting the emitted signals. -/
def applyMessages (st : InstanceState) (msgs : List ParsedMessage) :
    InstanceState × List Signal :=
  msgs.foldl
    (fun acc m =>
      let r := handleParsedMessage acc.1 m
      (r.1, acc.2 ++ r.2))
    (st, [])

/-- The framer buffer together with the store: the whole receive
pipeline of the module. -/
structure SystemState where
  buf : List Char
  inst : InstanceState

/-- One socket-data event: `parser.feed(data)` followed by the message
handler for every record emitted by the framer. -/
def feedSystem (s : SystemState) (chunk : List Char) : SystemState × List Signal :=
  let fr := feed s.buf chunk
  let ap := applyMessages s.inst fr.1
  (⟨fr.2, ap.1⟩, ap.2)

/-- `sendCommand` of the connection manager (api module): bail out
returning `false` when there is no socket or it is not connected,
otherwise append the terminator when absent, write the command, and
return `true`.  The socket argument is `none` when `self.socket` is
null, otherwise its `isConnected` flag; the second component is the
string written to the wire (`none` when nothing was written). -/
def sendCommand (socket : Option Bool) (cmd : List Char) : Bool × Option (List Char) :=
  match socket with
  | none => (false, none)
  | some connected =>
    if !connected then (false, none)
    else
      let command := if cmd.getLast? = some '\r' then cmd else cmd ++ ['\r']
      (true, some command)

/-- Unfold lemma: processing an empty buffer emits nothing. -/
theorem processGo_nil (acc : List Char) : processGo acc [] = ([], acc) := rfl

/-- Unfold lemma: a terminator ends the current candidate record. -/
theorem processGo_cr (acc rest : List Char) :
    processGo acc ('\r' :: rest) =
      (emitRecord acc ++ (processGo [] rest).1, (processGo [] rest).2) := by
  simp [processGo]

/-- Unfold lemma: a non-terminator character is appended to the current
candidate record. -/
theorem processGo_cons (acc : List Char) {c : Char} (rest : List Char) (h : c ≠ '\r') :
    processGo acc (c :: rest) = processGo (acc ++ [c]) rest := by
  simp [processGo, h]

/-- Processing a concatenation splits into processing the first part and
then continuing on the left-over buffer. -/
theorem processGo_append (ys : List Char) :
    ∀ (xs acc : List Char),
      processGo acc (xs ++ ys) =
        ((processGo acc xs).1 ++ (processGo (processGo acc xs).2 ys).1,
          (processGo (processGo acc xs).2 ys).2) := by
  intro xs
  induction xs with
  | nil => intro acc; simp [processGo_nil]
  | cons c rest ih =>
    intro acc
    by_cases hc : c = '\r'
    · subst hc
      rw [List.cons_append, processGo_cr, processGo_cr, ih []]
      simp [List.append_assoc]
    · rw [List.cons_append, processGo_cons acc (rest ++ ys) hc, processGo_cons acc rest hc]
      exact ih (acc ++ [c])

/-- A scanned, terminator-free prefix can be moved from the input into
the accumulator without changing the result. -/
theorem processGo_shift :
    ∀ (pre l acc : List Char), (∀ c ∈ pre, c ≠ '\r') →
      processGo acc (pre ++ l) = processGo (acc ++ pre) l := by
  intro pre
  induction pre with
  | nil => intro l acc _; simp
  | cons c rest ih =>
    intro l acc h
    have hc : c ≠ '\r' := h c (by simp)
    rw [List.cons_append, processGo_cons acc (rest ++ l) hc,
      ih l (acc ++ [c]) (fun x hx => h x (by simp [hx]))]
    simp

/-- The buffer left over by the processing loop never contains the
terminator character. -/
theorem processGo_no_cr :
    ∀ (l acc : List Char), (∀ c ∈ acc, c ≠ '\r') →
      ∀ c ∈ (processGo acc l).2, c ≠ '\r' := by
  intro l
  induction l with
  | nil => intro acc h; simpa [processGo_nil] using h
  | cons c rest ih =>
    intro acc h
    by_cases hc : c = '\r'
    · subst hc
      have h2 := ih [] (by simp)
      simpa [processGo_cr] using h2
    · rw [processGo_cons acc rest hc]
      exact ih (acc ++ [c]) (by
        intro x hx
        rcases List.mem_append.mp hx with hx1 | hx2
        · exact h x hx1
        · simp only [List.mem_singleton] at hx2
          exact hx2 ▸ hc)

/-- The left-over buffer is the suffix of the total input following the
last terminator (or the whole input when no terminator occurs). -/
theorem processGo_suffix :
    ∀ (l acc : List Char),
      ∃ p, acc ++ l = p ++ (processGo acc l).2 ∧
        (p = [] ∨ ∃ q, p = q ++ ['\r']) := by
  intro l
  induction l with
  | nil => intro acc; exact ⟨[], by simp [processGo_nil]⟩
  | cons c rest ih =>
    intro acc
    by_cases hc : c = '\r'
    · subst hc
      obtain ⟨p, hp, hq⟩ := ih []
      rw [List.nil_append] at hp
      refine ⟨acc ++ '\r' :: p, ?_, ?_⟩
      · rw [processGo_cr]
        conv_lhs => rw [hp]
        simp
      · rcases hq with rfl | ⟨q, rfl⟩
        · exact Or.inr ⟨acc, by simp⟩
        · exact Or.inr ⟨acc ++ '\r' :: q, by simp⟩
    · rw [processGo_cons acc rest hc]
      obtain ⟨p, hp, hq⟩ := ih (acc ++ [c])
      exact ⟨p, by simpa using hp, hq⟩

/-- Feeding `a ++ b` in one call equals feeding `a` then `b`: the
left-over buffer of the first call is terminator-free, so re-scanning it
from the start (as `feed` does) changes nothing. -/
theorem feed_append (buf a b : List Char) :
    feed buf (a ++ b) =
      ((feed buf a).1 ++ (feed (feed buf a).2 b).1, (feed (feed buf a).2 b).2) := by
  have hnc : ∀ c ∈ (processGo [] (buf ++ a)).2, c ≠ '\r' :=
    processGo_no_cr (buf ++ a) [] (by simp)
  have h2 : feed (feed buf a).2 b = processGo (feed buf a).2 b := by
    show processGo [] ((processGo [] (buf ++ a)).2 ++ b) = _
    rw [processGo_shift _ b [] hnc]
    rfl
  rw [h2]
  show processGo [] (buf ++ (a ++ b)) = _
  rw [← List.append_assoc, processGo_append b (buf ++ a) []]
  rfl

/-- Sequentially feeding a chunk list starting from a terminator-free
buffer equals feeding the concatenation of the chunks in one call. -/
theorem feedMany_flatten :
    ∀ (chunks : List (List Char)) (buf : List Char), (∀ c ∈ buf, c ≠ '\r') →
      feedMany buf chunks = feed buf chunks.flatten := by
  intro chunks
  induction chunks with
  | nil =>
    intro buf h
    have h2 := processGo_shift buf [] [] h
    rw [List.nil_append] at h2
    show ([], buf) = processGo [] (buf ++ [])
    rw [h2]
    rfl
  | cons chunk rest ih =>
    intro buf h
    have hnc : ∀ c ∈ (feed buf chunk).2, c ≠ '\r' :=
      processGo_no_cr (buf ++ chunk) [] (by simp)
    show ((feed buf chunk).1 ++ (feedMany (feed buf chunk).2 rest).1,
        (feedMany (feed buf chunk).2 rest).2) = feed buf (chunk :: rest).flatten
    rw [ih (feed buf chunk).2 hnc]
    show _ = feed buf (chunk ++ rest.flatten)
    rw [feed_append buf chunk rest.flatten]

/-- Splitting a string into its single-character chunks and flattening
them back gives the string. -/
theorem flatten_singletons (s : List Char) : (s.map (fun c => [c])).flatten = s := by
  induction s with
  | nil => rfl
  | cons c rest ih => simp [ih]

/-- Splitting at the first comma decomposes the string. -/
theorem splitAtComma_eq :
    ∀ (s a b : List Char), splitAtComma s = some (a, b) → s = a ++ ',' :: b := by
  intro s
  induction s with
  | nil => intro a b h; simp [splitAtComma] at h
  | cons c rest ih =>
    intro a b h
    by_cases hc : c = ','
    · subst hc
      simp [splitAtComma] at h
      obtain ⟨rfl, rfl⟩ := h
      rfl
    · simp only [splitAtComma, if_neg hc] at h
      cases hsp : splitAtComma rest with
      | none => rw [hsp] at h; exact absurd h (by simp)
      | some p =>
        obtain ⟨a', b'⟩ := p
        rw [hsp] at h
        simp only [Option.some.injEq, Prod.mk.injEq] at h
        obtain ⟨rfl, rfl⟩ := h
        simp [ih a' b' hsp]

/-- Length bookkeeping for the comma split. -/
theorem splitAtComma_length (s a b : List Char) (h : splitAtComma s = some (a, b)) :
    s.length = a.length + b.length + 1 := by
  rw [splitAtComma_eq s a b h]
  simp
  omega

/-- Every loop iteration strictly consumes input, which bounds the
`_parseInterrogateData` loop. -/
theorem scanStep_length_lt (rem : List Char) (gr : RawGroup × List Char)
    (h : scanStep rem = some gr) : gr.2.length < rem.length := by
  cases rem with
  | nil => simp [scanStep] at h
  | cons level rest =>
    simp only [scanStep] at h
    by_cases hv : validLevels.contains level
    · rw [if_pos hv] at h
      cases hsp : splitAtComma rest with
      | none => rw [hsp] at h; simp at h
      | some p =>
        obtain ⟨dStr, afterComma⟩ := p
        rw [hsp] at h
        simp only [Option.some.injEq] at h
        have hlen := splitAtComma_length rest dStr afterComma hsp
        have hdrop : gr.2.length ≤ afterComma.length := by
          rw [← h]
          simp
        simp only [List.length_cons]
        omega
    · rw [if_neg hv] at h; simp at h

/-- A record without the start delimiter has no last-delimiter suffix. -/
theorem lastDotSuffix_eq_none :
    ∀ (msg : List Char), '.' ∉ msg → lastDotSuffix msg = none := by
  intro msg
  induction msg with
  | nil => intro _; rfl
  | cons c rest ih =>
    intro h
    have hc : c ≠ '.' := fun e => h (by simp [e])
    have hr : '.' ∉ rest := fun e => h (by simp [e])
    simp [lastDotSuffix, ih hr, hc]

/-- Characterization of the last-delimiter suffix: writing a record as a
prefix, the last `.`, and a delimiter-free tail, the suffix starts at
that last `.`. -/
theorem lastDotSuffix_last :
    ∀ (p t : List Char), '.' ∉ t → lastDotSuffix (p ++ '.' :: t) = some ('.' :: t) := by
  intro p
  induction p with
  | nil =>
    intro t h
    simp [lastDotSuffix, lastDotSuffix_eq_none t h]
  | cons c rest ih =>
    intro t h
    simp [lastDotSuffix, ih t h]

/-- Character-level fragmentation invariance of the framer: feeding a
decoded character string split into single characters emits the same
parsed records as feeding it whole.  (This is the post-decode half of
the pipeline; the byte level is treated with `utf8Decode` below.) -/
theorem feed_char_singletons (s : List Char) :
    (feedMany [] (s.map (fun c => [c]))).1 = (feed [] s).1 := by
  rw [feedMany_flatten _ [] (by simp), flatten_singletons]

/-- Every decode step strictly consumes input, which bounds the decode
loop. -/
theorem utf8Step_length_lt (bs : List Nat) (p : Char × List Nat)
    (h : utf8Step bs = some p) : p.2.length < bs.length := by
  cases bs with
  | nil => simp [utf8Step] at h
  | cons b rest =>
    simp only [utf8Step] at h
    repeat' split at h
    all_goals injection h with h2
    all_goals subst h2
    all_goals simp [List.length_cons]
    all_goals omega

/-- The fuel bound on the decode loop is irrelevant above the input
length. -/
theorem utf8DecodeFuel_congr :
    ∀ (n : Nat) (bs : List Nat) (m : Nat), bs.length < n → bs.length < m →
      utf8DecodeFuel n bs = utf8DecodeFuel m bs := by
  intro n
  induction n with
  | zero => intro bs m h _; exact absurd h (Nat.not_lt_zero _)
  | succ n ih =>
    intro bs m hn hm
    cases m with
    | zero => exact absurd hm (Nat.not_lt_zero _)
    | succ m' =>
      cases hs : utf8Step bs with
      | none => simp [utf8DecodeFuel, hs]
      | some p =>
        have hlt := utf8Step_length_lt bs p hs
        simp only [utf8DecodeFuel, hs]
        rw [ih p.2 m' (by omega) (by omega)]

/-- Single-byte (ASCII) input decodes byte-for-byte, with any fuel
above the length. -/
theorem utf8DecodeFuel_ascii :
    ∀ (n : Nat) (bs : List Nat), bs.length < n → (∀ b ∈ bs, b ≤ 0x7F) →
      utf8DecodeFuel n bs = bs.map Char.ofNat := by
  intro n
  induction n with
  | zero => intro bs h _; exact absurd h (Nat.not_lt_zero _)
  | succ n ih =>
    intro bs h hb
    cases bs with
    | nil => simp [utf8DecodeFuel, utf8Step]
    | cons b rest =>
      have hb0 : b ≤ 0x7F := hb b (by simp)
      have hstep : utf8Step (b :: rest) = some (Char.ofNat b, rest) := by
        simp [utf8Step, hb0]
      simp only [utf8DecodeFuel, hstep, List.map_cons]
      rw [ih rest (by simp [List.length_cons] at h; omega)
        (fun x hx => hb x (by simp [hx]))]

/-- The per-chunk decode is byte-for-byte on single-byte (ASCII)
input. -/
theorem utf8Decode_ascii (bs : List Nat) (h : ∀ b ∈ bs, b ≤ 0x7F) :
    utf8Decode bs = bs.map Char.ofNat :=
  utf8DecodeFuel_ascii (bs.length + 1) bs (by omega) h

/-- Byte-level chunked feeding is character-level chunked feeding of
the per-chunk decodes. -/
theorem feedBytesMany_eq_feedMany :
    ∀ (chunks : List (List Nat)) (buf : List Char),
      feedBytesMany buf chunks = feedMany buf (chunks.map utf8Decode) := by
  intro chunks
  induction chunks with
  | nil => intro buf; rfl
  | cons c rest ih =>
    intro buf
    simp only [feedBytesMany, List.map_cons, feedMany, feedBytes]
    rw [ih]

/-- C1 counterexample — the byte string `.RAD1,` ++ `0xC3 0xA9` ++ `\r`
(the name `é` UTF-8 encoded): fed in one chunk, the per-chunk decode of
`QuartzParser.feed` (quartz.js:203) yields the record with name `é`;
fed split at every byte boundary, the two halves of the multi-byte
sequence each decode to U+FFFD, so a different record is emitted —
refuting the claimed invariance for arbitrary byte strings. -/
theorem c1_counterexample :
    (feedBytesMany []
        ([0x2E, 0x52, 0x41, 0x44, 0x31, 0x2C, 0xC3, 0xA9, 0x0D].map
          (fun b => [b]))).1 ≠
      (feedBytes [] [0x2E, 0x52, 0x41, 0x44, 0x31, 0x2C, 0xC3, 0xA9, 0x0D]).1 := by
  decide

/-- C1 (amended) — fragmentation invariance for single-byte input: for
every byte string of single-byte (ASCII, at most 0x7F) code units,
feeding it to `feed` in a single chunk and feeding it split at every
possible byte boundary across multiple `feed` calls emit the identical
ordered sequence of parsed records.  For general byte strings the
stateless per-chunk UTF-8 decode corrupts multi-byte sequences split
across chunk boundaries, so the invariance holds only at the
decoded-character level (`feed_char_singletons`). -/
theorem c1_ascii_fragmentation_invariance (bs : List Nat)
    (h : ∀ b ∈ bs, b ≤ 0x7F) :
    (feedBytesMany [] (bs.map (fun b => [b]))).1 = (feedBytes [] bs).1 := by
  rw [feedBytesMany_eq_feedMany]
  have hsing : (bs.map (fun b => [b])).map utf8Decode =
      (bs.map Char.ofNat).map (fun c => [c]) := by
    rw [List.map_map, List.map_map]
    exact List.map_congr_left (fun b hb => by
      show utf8Decode [b] = [Char.ofNat b]
      rw [utf8Decode_ascii [b] (fun x hx => by
        simp only [List.mem_singleton] at hx
        exact hx ▸ h b hb)]
      rfl)
  rw [hsing, feedMany_flatten _ [] (by simp), flatten_singletons]
  simp only [feedBytes]
  rw [utf8Decode_ascii bs h]

/-- C1 witness: the amended theorem applied to the single-byte record
`.E\r`. -/
theorem c1_ascii_fragmentation_invariance_witness :
    (feedBytesMany [] ([0x2E, 0x45, 0x0D].map (fun b => [b]))).1 =
      (feedBytes [] [0x2E, 0x45, 0x0D]).1 :=
  c1_ascii_fragmentation_invariance [0x2E, 0x45, 0x0D] (by decide)

/-- C7 — framer record trimming and drop rules: a single terminated
candidate record is handled by `emitRecord`; an empty candidate emits
nothing; a candidate with no `.` emits nothing; otherwise everything
before the last `.` is discarded and exactly the suffix starting at that
last `.` is parsed and emitted. -/
theorem c7_record_trimming :
    (∀ msg : List Char, '\r' ∉ msg → (feed [] (msg ++ ['\r'])).1 = emitRecord msg) ∧
    emitRecord [] = [] ∧
    (∀ msg : List Char, '.' ∉ msg → emitRecord msg = []) ∧
    (∀ p t : List Char, '.' ∉ t →
      emitRecord (p ++ '.' :: t) = [parseLine ('.' :: t)]) := by
  refine ⟨?_, rfl, ?_, ?_⟩
  · intro msg h
    have hmsg : ∀ c ∈ msg, c ≠ '\r' := fun c hc e => h (e ▸ hc)
    show (processGo [] (msg ++ ['\r'])).1 = emitRecord msg
    rw [processGo_shift msg ['\r'] [] hmsg, List.nil_append, processGo_cr]
    simp [processGo_nil]
  · intro msg h
    by_cases hm : msg = []
    · simp [emitRecord, hm]
    · simp [emitRecord, hm, lastDotSuffix_eq_none msg h]
  · intro p t h
    have hne : p ++ '.' :: t ≠ [] := by simp
    simp [emitRecord, hne, lastDotSuffix_last p t h]

/-- C7 witness: the theorem applied at the concrete record `x.E`. -/
theorem c7_record_trimming_witness :
    (feed [] ("x.E".toList ++ ['\r'])).1 = emitRecord ("x.E".toList) ∧
    emitRecord ("xy".toList) = [] ∧
    emitRecord ("x".toList ++ '.' :: "E".toList) = [parseLine ('.' :: "E".toList)] :=
  ⟨c7_record_trimming.1 ("x.E".toList) (by decide),
    c7_record_trimming.2.2.1 ("xy".toList) (by decide),
    c7_record_trimming.2.2.2 ("x".toList) ("E".toList) (by decide)⟩

/-- C10 — framer buffer invariant: starting from the initial (empty)
buffer, after any sequence of `feed` calls the internal buffer contains
no terminator, the buffer is exactly the trailing unterminated fragment
of all bytes seen (the suffix following the last terminator), and every
record completed by those bytes has already been emitted in arrival
order (the cumulative emissions equal one-shot processing). -/
theorem c10_buffer_invariant (chunks : List (List Char)) :
    '\r' ∉ (feedMany [] chunks).2 ∧
    (∃ p, chunks.flatten = p ++ (feedMany [] chunks).2 ∧
      (p = [] ∨ ∃ q, p = q ++ ['\r'])) ∧
    (feedMany [] chunks).1 = (feed [] chunks.flatten).1 := by
  have hm := feedMany_flatten chunks [] (by simp)
  refine ⟨?_, ?_, ?_⟩
  · rw [hm]
    intro hmem
    exact processGo_no_cr chunks.flatten [] (by simp) '\r' hmem rfl
  · rw [hm]
    obtain ⟨p, hp, hq⟩ := processGo_suffix chunks.flatten []
    rw [List.nil_append] at hp
    exact ⟨p, hp, hq⟩
  · rw [hm]

/-- The fuel bound on the interrogate loop is irrelevant above the
input length. -/
theorem pidFuel_congr :
    ∀ (n : Nat) (rem : List Char) (st : InstanceState) (m : Nat),
      rem.length < n → rem.length < m → pidFuel n st rem = pidFuel m st rem := by
  intro n
  induction n with
  | zero => intro rem st m h _; exact absurd h (Nat.not_lt_zero _)
  | succ n ih =>
    intro rem st m hn hm
    cases m with
    | zero => exact absurd hm (Nat.not_lt_zero _)
    | succ m' =>
      cases hs : scanStep rem with
      | none => simp [pidFuel, hs]
      | some gr =>
        have hlt := scanStep_length_lt rem gr hs
        simp only [pidFuel, hs]
        rw [ih gr.2 (groupApply st gr.1).1 m' (by omega) (by omega)]

/-- The fuel bound on the group scan is irrelevant above the input
length. -/
theorem scanGroupsFuel_congr :
    ∀ (n : Nat) (rem : List Char) (m : Nat),
      rem.length < n → rem.length < m → scanGroupsFuel n rem = scanGroupsFuel m rem := by
  intro n
  induction n with
  | zero => intro rem m h _; exact absurd h (Nat.not_lt_zero _)
  | succ n ih =>
    intro rem m hn hm
    cases m with
    | zero => exact absurd hm (Nat.not_lt_zero _)
    | succ m' =>
      cases hs : scanStep rem with
      | none => simp [scanGroupsFuel, hs]
      | some gr =>
        have hlt := scanStep_length_lt rem gr hs
        simp only [scanGroupsFuel, hs]
        rw [ih gr.2 m' (by omega) (by omega)]

/-- Unfold lemma: the interrogate loop exits when the scan stops. -/
theorem parseInterrogateData_none (st : InstanceState) {rem : List Char}
    (h : scanStep rem = none) : parseInterrogateData st rem = (st, false) := by
  simp [parseInterrogateData, pidFuel, h]

/-- Unfold lemma: one iteration of the interrogate loop. -/
theorem parseInterrogateData_some (st : InstanceState) {rem : List Char}
    {gr : RawGroup × List Char} (h : scanStep rem = some gr) :
    parseInterrogateData st rem =
      ((parseInterrogateData (groupApply st gr.1).1 gr.2).1,
        (groupApply st gr.1).2 ||
          (parseInterrogateData (groupApply st gr.1).1 gr.2).2) := by
  have hlt := scanStep_length_lt rem gr h
  show pidFuel (rem.length + 1) st rem = _
  simp only [pidFuel, h]
  rw [pidFuel_congr rem.length gr.2 (groupApply st gr.1).1 (gr.2.length + 1)
    (by omega) (by omega)]
  rfl

/-- Unfold lemma: the group scan stops when the step scan stops. -/
theorem scanGroups_none {rem : List Char} (h : scanStep rem = none) :
    scanGroups rem = [] := by
  simp [scanGroups, scanGroupsFuel, h]

/-- Unfold lemma: one step of the group scan. -/
theorem scanGroups_some {rem : List Char} {gr : RawGroup × List Char}
    (h : scanStep rem = some gr) : scanGroups rem = gr.1 :: scanGroups gr.2 := by
  have hlt := scanStep_length_lt rem gr h
  show scanGroupsFuel (rem.length + 1) rem = _
  simp only [scanGroupsFuel, h]
  rw [scanGroupsFuel_congr rem.length gr.2 (gr.2.length + 1) (by omega) (by omega)]
  rfl

/-- The `updated` flag of one loop body equals the numeric-parse test. -/
theorem groupApply_snd (st : InstanceState) (g : RawGroup) :
    (groupApply st g).2 = groupOk g := by
  unfold groupApply groupOk
  cases parseIntJS g.destStr <;> cases parseIntJS g.srcStr <;> simp

/-- A group whose numeric parse fails stores nothing. -/
theorem groupApply_fst_of_not_ok (st : InstanceState) (g : RawGroup)
    (h : groupOk g = false) : (groupApply st g).1 = st := by
  unfold groupOk at h
  unfold groupApply
  cases hd : parseIntJS g.destStr <;> cases hs : parseIntJS g.srcStr <;>
    simp_all

/-- The interrogate loop equals scanning all groups and applying, in
order, exactly those whose numeric fields parse; `updated` is true iff
some scanned group parsed.  In particular a numeric parse failure skips
only that group: scanning continues and later parses are still
applied. -/
theorem parseInterrogateData_eq_scan :
    ∀ (n : Nat) (rem : List Char), rem.length ≤ n → ∀ st : InstanceState,
      parseInterrogateData st rem =
        (((scanGroups rem).filter groupOk).foldl (fun s g => (groupApply s g).1) st,
          (scanGroups rem).any groupOk) := by
  intro n
  induction n with
  | zero =>
    intro rem h st
    have hrem : rem = [] := List.eq_nil_of_length_eq_zero (Nat.le_zero.mp h)
    subst hrem
    simp [parseInterrogateData, pidFuel, scanGroups, scanGroupsFuel, scanStep]
  | succ n ih =>
    intro rem h st
    cases hs : scanStep rem with
    | none =>
      rw [parseInterrogateData_none st hs, scanGroups_none hs]
      simp
    | some gr =>
      have hlt := scanStep_length_lt rem gr hs
      rw [parseInterrogateData_some st hs, scanGroups_some hs,
        ih gr.2 (by omega) (groupApply st gr.1).1]
      by_cases hok : groupOk gr.1
      · simp [List.filter_cons, List.any_cons, hok, groupApply_snd]
      · have hid := groupApply_fst_of_not_ok st gr.1 (by simpa using hok)
        simp [List.filter_cons, List.any_cons, hok, groupApply_snd, hid]

/-- Fuel-free form of `parseInterrogateData_eq_scan`. -/
theorem parseInterrogateData_scan (st : InstanceState) (rem : List Char) :
    parseInterrogateData st rem =
      (((scanGroups rem).filter groupOk).foldl (fun s g => (groupApply s g).1) st,
        (scanGroups rem).any groupOk) :=
  parseInterrogateData_eq_scan rem.length rem Nat.le.refl st

/-- C2 — round-trip of name query and response: `buildReadNamesCommand 2 1`
is exactly `.RD1\r.RD2\r.RS1\r`, and feeding the response bytes
`.RAD1,Cam A\r.RAD2,Cam B\r.RAS1,Mic 1\r` through framer, interpreter and
store yields a Destination Directory whose entries map id 1 to name
`Cam A` and id 2 to `Cam B`, and a Source Directory mapping id 1 to
`Mic 1` (names are stored as `[id] name` labels). -/
theorem c2_roundtrip_names :
    buildReadNamesCommand 2 1 = ".RD1\r.RD2\r.RS1\r".toList ∧
    (feedSystem ⟨[], initInstance⟩
      (".RAD1,Cam A\r.RAD2,Cam B\r.RAS1,Mic 1\r".toList)).1.inst.choicesDestinations =
      [⟨"1".toList, "[1] Cam A".toList⟩, ⟨"2".toList, "[2] Cam B".toList⟩] ∧
    (feedSystem ⟨[], initInstance⟩
      (".RAD1,Cam A\r.RAD2,Cam B\r.RAS1,Mic 1\r".toList)).1.inst.choicesSources =
      [⟨"1".toList, "[1] Mic 1".toList⟩] := by
  refine ⟨by decide, by decide, by decide⟩

/-- C3 — crosspoint apply with multi-level fan-out: the record `.UV1,5`
parses to a single-level update and applying it sets the table entry for
level `V`, destination 1 to source 5 and nothing else; `.UVA1,5` parses
to a two-level update and applying it sets the entries for levels `V`
and `A` at destination 1 to source 5 and nothing else. -/
theorem c3_crosspoint_apply :
    parseLine (".UV1,5".toList) = ParsedMessage.crosspointUpdate ['V'] 1 5 ∧
    parseLine (".UVA1,5".toList) = ParsedMessage.crosspointUpdate ['V', 'A'] 1 5 ∧
    (∀ (st : InstanceState) (l : Char) (d : Int),
      (handleParsedMessage st (ParsedMessage.crosspointUpdate ['V'] 1 5)).1.crosspoints l d =
        if l = 'V' ∧ d = 1 then some 5 else st.crosspoints l d) ∧
    (∀ (st : InstanceState) (l : Char) (d : Int),
      (handleParsedMessage st
        (ParsedMessage.crosspointUpdate ['V', 'A'] 1 5)).1.crosspoints l d =
        if (l = 'V' ∨ l = 'A') ∧ d = 1 then some 5 else st.crosspoints l d) := by
  refine ⟨by decide, by decide, ?_, ?_⟩
  · intro st l d
    show setXpt st.crosspoints 'V' 1 5 l d = _
    rfl
  · intro st l d
    show setXpt (setXpt st.crosspoints 'V' 1 5) 'A' 1 5 l d = _
    simp only [setXpt]
    by_cases hd : d = 1
    · by_cases hv : l = 'V' <;> by_cases ha : l = 'A' <;> simp [hv, ha, hd]
    · simp [hd]

/-- C4 — acknowledge multi-group parsing: `.AV001,005V002,003` is
interpreted as an Acknowledge with data `V001,005V002,003`, the loop
scans exactly the two groups `(V,001,005)` and `(V,002,003)`, and
applying the data sets level `V` destination 1 to source 5 and level `V`
destination 2 to source 3, changing no other table entry; the `updated`
flag (the crosspoint-changed notification) is raised. -/
theorem c4_acknowledge_multigroup :
    parseLine (".AV001,005V002,003".toList) =
      ParsedMessage.acknowledge ("V001,005V002,003".toList)
        (".AV001,005V002,003".toList) ∧
    scanGroups ("V001,005V002,003".toList) =
      [⟨'V', "001".toList, "005".toList⟩, ⟨'V', "002".toList, "003".toList⟩] ∧
    (∀ (st : InstanceState) (l : Char) (d : Int),
      (parseInterrogateData st ("V001,005V002,003".toList)).1.crosspoints l d =
        if l = 'V' ∧ d = 1 then some 5
        else if l = 'V' ∧ d = 2 then some 3
        else st.crosspoints l d) ∧
    (∀ st : InstanceState,
      (parseInterrogateData st ("V001,005V002,003".toList)).2 = true) := by
  have h1 : scanStep ("V001,005V002,003".toList) =
      some (⟨'V', "001".toList, "005".toList⟩, "V002,003".toList) := by decide
  have h2 : scanStep ("V002,003".toList) =
      some (⟨'V', "002".toList, "003".toList⟩, []) := by decide
  have hg1 : ∀ s : InstanceState, groupApply s ⟨'V', "001".toList, "005".toList⟩ =
      ({ s with crosspoints := setXpt s.crosspoints 'V' 1 5 }, true) := fun s => rfl
  have hg2 : ∀ s : InstanceState, groupApply s ⟨'V', "002".toList, "003".toList⟩ =
      ({ s with crosspoints := setXpt s.crosspoints 'V' 2 3 }, true) := fun s => rfl
  refine ⟨by decide, ?_, ?_, ?_⟩
  · rw [scanGroups_some h1, scanGroups_some h2,
      scanGroups_none (show scanStep ([] : List Char) = none from rfl)]
  · intro st l d
    rw [parseInterrogateData_some st h1, parseInterrogateData_some _ h2]
    simp only [parseInterrogateData_none _ (show scanStep ([] : List Char) = none from rfl),
      hg1, hg2]
    show setXpt (setXpt st.crosspoints 'V' 1 5) 'V' 2 3 l d = _
    simp only [setXpt]
    by_cases hv : l = 'V'
    · by_cases hd1 : d = 1
      · simp [hv, hd1]
      · by_cases hd2 : d = 2 <;> simp [hv, hd1, hd2]
    · simp [hv]
  · intro st
    rw [parseInterrogateData_some st h1]
    rw [hg1 st]
    simp

/-- C5 counterexample — the claim predicts that after the numeric parse
failure in the first group of `Vx,1V2,3` the remaining data is not
parsed, so the entry for level `V`, destination 2 would stay untouched;
the loop in fact continues and stores source 3 there. -/
theorem c5_counterexample :
    ¬ ((parseInterrogateData initInstance ("Vx,1V2,3".toList)).1.crosspoints 'V' 2 =
        initInstance.crosspoints 'V' 2) := by
  have h1 : scanStep ("Vx,1V2,3".toList) =
      some (⟨'V', "x".toList, "1".toList⟩, "V2,3".toList) := by decide
  have h2 : scanStep ("V2,3".toList) =
      some (⟨'V', "2".toList, "3".toList⟩, []) := by decide
  have hg1 : groupApply initInstance ⟨'V', "x".toList, "1".toList⟩ =
      (initInstance, false) := rfl
  have hg2 : ∀ s : InstanceState, groupApply s ⟨'V', "2".toList, "3".toList⟩ =
      ({ s with crosspoints := setXpt s.crosspoints 'V' 2 3 }, true) := fun s => rfl
  rw [parseInterrogateData_some initInstance h1]
  simp only [hg1]
  rw [parseInterrogateData_some initInstance h2]
  simp only [parseInterrogateData_none _ (show scanStep ([] : List Char) = none from rfl),
    hg2]
  show ¬ (setXpt initInstance.crosspoints 'V' 2 3 'V' 2 = initInstance.crosspoints 'V' 2)
  simp [setXpt, initInstance]

/-- C5 (amended) — a numeric parse failure on a group skips only that
group: nothing is stored for it, scanning continues with the remaining
data, and every group whose numeric fields parse — before or after the
failure — is applied to the crosspoint table in scan order; `updated`
is raised iff some scanned group parsed. -/
theorem c5_numeric_failure_skips_group (st : InstanceState) (data : List Char) :
    parseInterrogateData st data =
      (((scanGroups data).filter groupOk).foldl (fun s g => (groupApply s g).1) st,
        (scanGroups data).any groupOk) :=
  parseInterrogateData_scan st data

/-- C6 — dedup on directory but not on crosspoint: after `.RAD1,Cam A`
has been applied once, applying the identical record again emits no
directory-changed signal (while the first application did), whereas
applying `.UV1,5` a second time still emits a crosspoint-changed
signal. -/
theorem c6_dedup_directory_not_crosspoint :
    Signal.directoryChanged ∈
      (handleParsedMessage initInstance (parseLine (".RAD1,Cam A".toList))).2 ∧
    Signal.directoryChanged ∉
      (handleParsedMessage
        (handleParsedMessage initInstance (parseLine (".RAD1,Cam A".toList))).1
        (parseLine (".RAD1,Cam A".toList))).2 ∧
    Signal.crosspointChanged ∈
      (handleParsedMessage
        (handleParsedMessage initInstance (parseLine (".UV1,5".toList))).1
        (parseLine (".UV1,5".toList))).2 := by
  refine ⟨by decide, by decide, ?_⟩
  show Signal.crosspointChanged ∈ [Signal.crosspointChanged]
  simp

/-- C8 — protocol errors are non-fatal and state-preserving: feeding the
record `.E\r` through framer, interpreter and store (all total
functions, so nothing can throw) leaves the directories and the
crosspoint table exactly unchanged and yields only the diagnostic
signal. -/
theorem c8_error_nonfatal (inst : InstanceState) :
    feedSystem ⟨[], inst⟩ (".E\r".toList) = (⟨[], inst⟩, [Signal.diagnostic]) :=
  rfl

/-- C9 — `sendCommand` writes iff a socket exists and is connected
(nothing is queued otherwise), returns true exactly when the write was
attempted, and the written command is the input with a carriage return
appended exactly when the input did not already end with one. -/
theorem c9_sendCommand (socket : Option Bool) (cmd : List Char) :
    ((sendCommand socket cmd).2.isSome = true ↔ socket = some true) ∧
    (sendCommand socket cmd).1 = (sendCommand socket cmd).2.isSome ∧
    (∀ w, (sendCommand socket cmd).2 = some w →
      (cmd.getLast? = some '\r' → w = cmd) ∧
      (cmd.getLast? ≠ some '\r' → w = cmd ++ ['\r'])) := by
  match socket with
  | none => simp [sendCommand]
  | some false => simp [sendCommand]
  | some true =>
    refine ⟨by simp [sendCommand], by simp [sendCommand], ?_⟩
    intro w hw
    by_cases h : cmd.getLast? = some '\r'
    · simp only [sendCommand, Bool.not_true, Bool.false_eq_true, if_neg, if_pos h,
        Option.some.injEq, reduceIte] at hw
      exact ⟨fun _ => hw.symm, fun hc => absurd h hc⟩
    · simp only [sendCommand, Bool.not_true, Bool.false_eq_true, if_neg h,
        Option.some.injEq, reduceIte] at hw
      exact ⟨fun hc => absurd hc h, fun _ => hw.symm⟩

/-- C9 witness: `c9_sendCommand` applied to a connected socket and the
command `.RD1`, which does not yet end in a terminator. -/
theorem c9_sendCommand_witness :
    (sendCommand (some true) (".RD1".toList)).2.isSome = true ∧
    ".RD1\r".toList = ".RD1".toList ++ ['\r'] := by
  have h := c9_sendCommand (some true) (".RD1".toList)
  exact ⟨h.1.mpr rfl, (h.2.2 (".RD1\r".toList) (by decide)).2 (by decide)⟩

end Quartz
